import Mathlib

/-!
Verification of the star-categorizer ingestion-and-categorization pipeline.

The TypeScript sources are shallowly embedded: JS strings are lists of
characters, JS `Map`/object dictionaries are insertion-ordered association
lists, `Date.now()` is an explicit `Nat` parameter, rational arithmetic
stands in for JS numbers, and every asynchronous callback graph is
presented as the deterministic function the single-threaded event loop
computes.  Each definition names the source function it embeds.
-/

namespace StarCat

/-- JS strings are modelled as lists of characters. -/
abbrev Str := List Char

/-- Turn a Lean string literal into the model's string type. -/
def str (s : String) : Str := s.data

/-- Embeds `String.prototype.trim()` (used by `CategoryService.mergeBatchResults`
in `normalizeCategory`): drop leading and trailing whitespace. -/
def jsTrim (s : Str) : Str :=
  ((s.dropWhile Char.isWhitespace).reverse.dropWhile Char.isWhitespace).reverse

/-- Lookup in an insertion-ordered association list; embeds `Map.get` /
JS object property read. -/
def mapGet {α : Type} (m : List (Str × α)) (k : Str) : Option α :=
  match m with
  | [] => none
  | (k', v) :: rest => if k' = k then some v else mapGet rest k

/-- Embeds `Map.set` / JS object property write: update in place, else append. -/
def mapSet {α : Type} (m : List (Str × α)) (k : Str) (v : α) : List (Str × α) :=
  match m with
  | [] => [(k, v)]
  | (k', v') :: rest => if k' = k then (k, v) :: rest else (k', v') :: mapSet rest k v

/-- Embeds `Map.delete` / JS `delete` of an object property. -/
def mapDelete {α : Type} (m : List (Str × α)) (k : Str) : List (Str × α) :=
  match m with
  | [] => []
  | (k', v') :: rest => if k' = k then rest else (k', v') :: mapDelete rest k

/-- Raw item of the upstream page payload, as read by `extractRepoData`
(`src/app/api/compute/route.ts`). `none` stands for JS `null`/`undefined`. -/
structure RawRepo where
  full_name : Str
  description : Option Str
  language : Option Str
  topics : Option (List Str)
  stargazers_count : Nat
deriving DecidableEq, Repr

/-- The `StarredRepo` shape of `src/app/api/compute/route.ts`. -/
structure StarredRepo where
  full_name : Str
  description : Option Str
  language : Option Str
  topics : List Str
  stargazers_count : Nat
deriving DecidableEq, Repr

/-- Embeds the per-item body of `extractRepoData`
(`src/app/api/compute/route.ts` lines 218-238):
`description?.substring(0, 300) || null` and `topics?.slice(0, 5) || []`. -/
def extractOne (item : RawRepo) : StarredRepo :=
  { full_name := item.full_name
    description :=
      match item.description with
      | none => none
      | some d => if d.take 300 = [] then none else some (d.take 300)
    language := item.language
    topics := (item.topics.getD []).take 5
    stargazers_count := item.stargazers_count }

/-- Embeds `extractRepoData`: the loop fills slot `i` from `data[i]`,
so the result is the elementwise image of the input page. -/
def extractRepoData (data : List RawRepo) : List StarredRepo :=
  data.map extractOne

/-- Embeds the `CacheEntry` shape of `SimpleCache`
(`src/app/api/compute/route.ts` lines 57-62); `expiry` is a millisecond
timestamp. -/
structure CacheEntry (T : Type) where
  data : T
  expiry : Nat

/-- Embeds `SimpleCache` (`src/app/api/compute/route.ts` lines 69-108).
`TTL` is in milliseconds. -/
structure SimpleCache (T : Type) where
  cache : List (Str × CacheEntry T)
  TTL : Nat

/-- Embeds `SimpleCache.get`; `now` is the value of `Date.now()` at the call.
Returns the read result together with the cache state after the call
(the expired branch deletes the entry). -/
def cacheGet {T : Type} (c : SimpleCache T) (now : Nat) (key : Str) :
    Option T × SimpleCache T :=
  match mapGet c.cache key with
  | none => (none, c)
  | some entry =>
    if now > entry.expiry then (none, { c with cache := mapDelete c.cache key })
    else (some entry.data, c)

/-- Embeds `SimpleCache.set`: stores the value with `expiry = Date.now() + TTL`. -/
def cacheSet {T : Type} (c : SimpleCache T) (now : Nat) (key : Str) (data : T) :
    SimpleCache T :=
  { c with cache := mapSet c.cache key { data := data, expiry := now + c.TTL } }

/-- The `RepoDescription` shape of `CategoryService`; empty strings stand for
the JS `''` produced by `repo.description || ''`. -/
structure RepoDescription where
  name : Str
  description : Str
  language : Str
  topics : List Str
deriving DecidableEq, Repr

/-- Embeds `CategoryService.prepareRepoDescriptions`. -/
def prepareRepoDescriptions (repos : List StarredRepo) : List RepoDescription :=
  repos.map fun repo =>
    { name := repo.full_name
      description := repo.description.getD []
      language := repo.language.getD []
      topics := repo.topics }

/-- Weight of normalized description length in `calculateComplexity`. -/
def descWeight : ℚ := 4 / 10

/-- Weight of language variety in `calculateComplexity`. -/
def langWeight : ℚ := 3 / 10

/-- Weight of topic density in `calculateComplexity`. -/
def topicWeight : ℚ := 3 / 10

/-- Embeds `CategoryService.calculateComplexity`: weighted sum of the
normalized average description length (capped at 1 when the average reaches
100 characters), the ratio of distinct non-empty languages to item count
(`new Set(...filter(Boolean)).size / n`), and the average topic count. -/
def calculateComplexity (repos : List RepoDescription) : ℚ :=
  if repos.length = 0 then 0
  else
    let n : ℚ := repos.length
    let avgDescLength : ℚ := ((repos.map fun r => (r.description.length : ℚ)).sum) / n
    let languageVariety : ℚ :=
      ((((repos.map fun r => r.language).filter fun l => l ≠ []).dedup.length : ℚ)) / n
    let topicDensity : ℚ := ((repos.map fun r => (r.topics.length : ℚ)).sum) / n
    let normalizedDescLength : ℚ := min (avgDescLength / 100) 1
    normalizedDescLength * descWeight + languageVariety * langWeight +
      topicDensity * topicWeight

/-- Embeds `CategoryService.getOptimalBatchSize`.  The value is an integer
because `200 - Math.floor(score * 150)` can go negative for scores above
`4/3` and `min(totalRepos, size)` follows whatever sign its arguments have. -/
def getOptimalBatchSize (complexityScore : ℚ) (totalRepos : Nat) : ℤ :=
  let size : ℤ := 200 - Int.floor (complexityScore * 150)
  if totalRepos < 50 then min (totalRepos : ℤ) size
  else if totalRepos > 300 then min 150 size
  else size

/-- Embeds the upstream pagination of `getAllStarredRepos`: the synthetic
upstream serves 1-indexed page `p` of `pages`. -/
def getPage (pages : List (List RawRepo)) (p : Nat) : List RawRepo :=
  pages.getD (p - 1) []

/-- Embeds the wave loop of `getAllStarredRepos`
(`src/app/api/compute/route.ts` lines 169-196): the remaining pages are
fetched in waves of width `W`; wave `batch` covers pages
`batch * W + 2` through `min (batch * W + W + 1) totalPages`, and each
wave's pages are appended in page-index order (`Promise.all` keeps the
order of its argument array).  The first argument is the number of waves
still to run. -/
def fetchWaves (pages : List (List RawRepo)) (W totalPages : Nat) :
    Nat → Nat → List StarredRepo
  | 0, _ => []
  | n + 1, batch =>
    let startPage := batch * W + 2
    let endPage := min (startPage + W - 1) totalPages
    (List.range' startPage (endPage + 1 - startPage)).flatMap
      (fun p => extractRepoData (getPage pages p)) ++
    fetchWaves pages W totalPages n (batch + 1)

/-- Embeds `getAllStarredRepos` (`src/app/api/compute/route.ts` lines
120-211) over a synthetic upstream dataset `pages`, with the concurrency
limit `W` left as a parameter (the source fixes `CONCURRENCY_LIMIT = 3`).
The Link-header "last page" hint is the page count of the dataset.  The
cache-hit path is not taken (fresh cache). -/
def getAllStarredRepos (pages : List (List RawRepo)) (W : Nat) : List StarredRepo :=
  match pages with
  | [] => []
  | firstPage :: rest =>
    if firstPage.length = 0 then []
    else
      let totalPages := (firstPage :: rest).length
      if totalPages ≤ 1 then extractRepoData firstPage
      else
        let firstPageRepos := extractRepoData firstPage
        let batchCount := (totalPages - 1 + W - 1) / W
        firstPageRepos ++ fetchWaves (firstPage :: rest) W totalPages batchCount 0

/-- A category map: insertion-ordered mapping from category name to the
sequence of repository full names. -/
abbrev CategoryMap := List (Str × List Str)

/-- All repository names recorded anywhere in a category map, in order. -/
def joinVals (m : CategoryMap) : List Str := m.flatMap fun p => p.2

/-- Embeds `if (!mergedCategories[category]) mergedCategories[category] = []`:
adds an empty category at the end unless the key is already present. -/
def ensureCat (m : CategoryMap) (k : Str) : CategoryMap :=
  match mapGet m k with
  | some _ => m
  | none => m ++ [(k, [])]

/-- Embeds `mergedCategories[category].push(repo)`: append `r` to the value
sequence of the first entry with key `k` (no-op when the key is absent). -/
def pushRepo (m : CategoryMap) (k : Str) (r : Str) : CategoryMap :=
  match m with
  | [] => []
  | (k', v) :: rest =>
    if k' = k then (k', v ++ [r]) :: rest else (k', v) :: pushRepo rest k r

/-- Embeds the inner repo loop of the `route.ts` merge
(lines 411-417): a name is pushed only if the global `seenRepos` set does
not hold it yet.  Returns the updated map and the updated seen set. -/
def addReposGlobal (m : CategoryMap) (seen : List Str) (k : Str) :
    List Str → CategoryMap × List Str
  | [] => (m, seen)
  | r :: rs =>
    if r ∈ seen then addReposGlobal m seen k rs
    else addReposGlobal (pushRepo m k r) (r :: seen) k rs

/-- Embeds the entry loop of the `route.ts` merge over one batch result. -/
def mergeEntriesRoute (m : CategoryMap) (seen : List Str) :
    List (Str × List Str) → CategoryMap × List Str
  | [] => (m, seen)
  | (category, repos) :: rest =>
    let m1 := ensureCat m category
    let p := addReposGlobal m1 seen category repos
    mergeEntriesRoute p.1 p.2 rest

/-- Embeds the batch loop of the `route.ts` merge. -/
def mergeBatchesRoute : List CategoryMap → CategoryMap × List Str → CategoryMap × List Str
  | [], acc => acc
  | b :: bs, acc => mergeBatchesRoute bs (mergeEntriesRoute acc.1 acc.2 b)

/-- Embeds the empty-category pruning at the end of the `route.ts` merge
(lines 422-426). -/
def pruneEmpty (m : CategoryMap) : CategoryMap :=
  m.filter fun p => !p.2.isEmpty

/-- Embeds the merge step of `categorizeRepos`
(`src/app/api/compute/route.ts` lines 397-426): category names are used
verbatim as keys, repository names are dropped when already recorded
anywhere in the merged output, and empty categories are removed. -/
def mergeRoute (batchResults : List CategoryMap) : CategoryMap :=
  pruneEmpty (mergeBatchesRoute batchResults ([], [])).1

/-- Embeds the repo loop of `CategoryService.mergeBatchResults`
(`src/unnamed/part_001` lines 361-366): a name is pushed into the category
unless that category's current sequence already holds it. -/
def addReposSvc (m : CategoryMap) (k : Str) : List Str → CategoryMap
  | [] => m
  | r :: rs =>
    if r ∈ (mapGet m k).getD [] then addReposSvc m k rs
    else addReposSvc (pushRepo m k r) k rs

/-- Embeds the entry loop of `CategoryService.mergeBatchResults`: the merge
key is the trimmed category name. -/
def mergeEntriesSvc (m : CategoryMap) : List (Str × List Str) → CategoryMap
  | [] => m
  | (category, repos) :: rest =>
    let normalized := jsTrim category
    mergeEntriesSvc (addReposSvc (ensureCat m normalized) normalized repos) rest

/-- Embeds `CategoryService.mergeBatchResults`
(`src/unnamed/part_001` lines 344-371). -/
def mergeBatchResults (batchResults : List CategoryMap) : CategoryMap :=
  batchResults.foldl mergeEntriesSvc []

/-- Invariant of the `CategoryService` merge: every key is its own trim
(so trimmed-equal categories share one entry) and no category holds a
repository name twice. -/
def svcInv (m : CategoryMap) : Prop :=
  ∀ p ∈ m, jsTrim p.1 = p.1 ∧ p.2.Nodup

/-- Models one LLM dispatch of `categorizeRepos`
(`src/app/api/compute/route.ts`): the backend either yields response text
of type `Text` or fails in transport (`none`), after `duration`
milliseconds. -/
structure LLMCall (Text : Type) where
  duration : Nat
  result : Option Text

/-- Embeds the `Promise.race` of a dispatch against its watchdog timer
(lines 353-360 and 380-387): the call's outcome is observed only when it
settles before the timer fires; otherwise the race rejects with the
timeout error (`none`). -/
def race {Text : Type} (call : LLMCall Text) (timeoutMs : Nat) :
    Option (Option Text) :=
  if call.duration < timeoutMs then some call.result else none

/-- A dispatch fails when it exceeds `timeoutMs`, errors in transport, or
returns text that `parse` rejects (the three `catch` sources of
`categorizeRepos`'s per-batch `try`). -/
def callFails {Text : Type} (parse : Text → Option CategoryMap)
    (timeoutMs : Nat) (call : LLMCall Text) : Prop :=
  timeoutMs ≤ call.duration ∨ call.result = none ∨
    ∃ t, call.result = some t ∧ parse t = none

/-- Embeds the fallback retry block of `categorizeRepos`
(`src/app/api/compute/route.ts` lines 366-393): one dispatch against the
fallback backend racing a 90000 ms watchdog; any failure (timeout,
transport, or unparsable text) is caught and yields the empty map.  The
second component counts fallback dispatches. -/
def fallbackDispatch {Text : Type} (parse : Text → Option CategoryMap)
    (fallback : LLMCall Text) : CategoryMap × Nat :=
  match race fallback 90000 with
  | some (some text) =>
    match parse text with
    | some m => (m, 1)
    | none => ([], 1)
  | some none => ([], 1)
  | none => ([], 1)

/-- Embeds the per-batch try/fallback of `categorizeRepos`
(`src/app/api/compute/route.ts` lines 348-394).  `parse` abstracts
`parseResponse` (built on the JS `JSON.parse`): it yields the parsed
category map or rejects the text.  The primary dispatch races a 60000 ms
timer; any failure is caught and triggers the single fallback dispatch.
Totality of this function is the embedded form of "the batch never
throws". -/
def processBatch {Text : Type} (parse : Text → Option CategoryMap)
    (primary fallback : LLMCall Text) : CategoryMap × Nat :=
  match race primary 60000 with
  | some (some text) =>
    match parse text with
    | some m => (m, 0)
    | none => fallbackDispatch parse fallback
  | some none => fallbackDispatch parse fallback
  | none => fallbackDispatch parse fallback

/-- State of the request coalescer (`pendingRequests`,
`src/app/api/compute/route.ts` lines 498-532 and 596-603), under the
single-threaded event-loop semantics: the handler's section from the
`pendingRequests.has` check to `pendingRequests.set` holds no suspension
point, so each arrival is one atomic step.  `pending` is the run id stored
for the key, `nextRun` counts real pipeline invocations, and `waiters`
records, per caller, the run id whose result that caller awaits. -/
structure CoalState where
  pending : Option Nat
  nextRun : Nat
  waiters : List Nat
deriving DecidableEq, Repr

/-- The state before any request arrived. -/
def initState : CoalState := { pending := none, nextRun := 0, waiters := [] }

/-- One caller arriving while no run has completed: if an entry is pending
the caller awaits it (lines 522-526); otherwise it invokes the pipeline,
stores the promise, and awaits it (lines 535-606). -/
def arrive (s : CoalState) : CoalState :=
  match s.pending with
  | some rid => { s with waiters := s.waiters ++ [rid] }
  | none =>
    { pending := some s.nextRun, nextRun := s.nextRun + 1,
      waiters := s.waiters ++ [s.nextRun] }

/-- N callers arriving in sequence while no run has completed. -/
def arriveN : Nat → CoalState → CoalState
  | 0, s => s
  | n + 1, s => arriveN n (arrive s)

/-- A caller arriving after the shared run has failed but before the
cleanup timer: it finds the entry, awaits the rejected promise, catches
the failure, deletes the entry (line 530), and then starts a fresh run. -/
def arriveAfterFailure (s : CoalState) : CoalState :=
  { pending := some s.nextRun, nextRun := s.nextRun + 1,
    waiters := s.waiters ++ [s.nextRun] }

/-- The two success shapes of the `POST` handler
(`src/app/api/compute/route.ts`): the no-stars sentinel
(`starredCount: 0, noStars: true, devFact`) and the categorized response. -/
inductive ComputeResult where
  | noStars (message : Str) (starredCount : Nat) (devFact : Str)
  | categorized (message : Str) (starredCount : Nat) (categoryCount : Nat)
      (categories : CategoryMap)
deriving DecidableEq, Repr

/-- Embeds the result construction of the `POST` handler
(`src/app/api/compute/route.ts` lines 535-595) after the starred
repositories are fetched: the empty list short-circuits to the no-stars
sentinel built around a dev fact, and otherwise the categorization result
is used, falling back to a single `Uncategorized` bucket holding every
fetched full name when it is empty.  The second component counts calls of
`categorizeRepos`. -/
def postPipeline (starredRepos : List StarredRepo)
    (categorize : List StarredRepo → CategoryMap) (fact : Str) :
    ComputeResult × Nat :=
  if starredRepos.length = 0 then
    (.noStars (str "No starred repositories found") 0 fact, 0)
  else
    let categorizedRepos := categorize starredRepos
    let validCategories :=
      if 0 < categorizedRepos.length then categorizedRepos
      else [(str "Uncategorized", starredRepos.map fun repo => repo.full_name)]
    (.categorized (str "Successfully categorized starred projects")
      starredRepos.length validCategories.length validCategories, 1)

theorem dropWhile_dropWhile {α : Type} (p : α → Bool) (l : List α) :
    (l.dropWhile p).dropWhile p = l.dropWhile p := by
  induction l with
  | nil => rfl
  | cons a t ih =>
    by_cases h : p a = true
    · simp [List.dropWhile_cons, h, ih]
    · simp [List.dropWhile_cons, h]

theorem dropWhile_revDrop_comm {α : Type} (p : α → Bool) (l : List α) :
    ((l.reverse.dropWhile p).reverse).dropWhile p
      = ((l.dropWhile p).reverse.dropWhile p).reverse := by
  induction l with
  | nil => rfl
  | cons a t ih =>
    by_cases he : (t.reverse.dropWhile p).isEmpty = true
    · have hnilrev : t.reverse.dropWhile p = [] := List.isEmpty_iff.mp he
      have hnil : t.dropWhile p = [] := by
        refine List.dropWhile_eq_nil_iff.mpr fun x hx => ?_
        exact List.dropWhile_eq_nil_iff.mp hnilrev x (List.mem_reverse.mpr hx)
      by_cases hpa : p a = true
      · simp [List.reverse_cons, List.dropWhile_append, hnilrev, hnil,
          List.dropWhile_cons, hpa]
      · simp [List.reverse_cons, List.dropWhile_append, hnilrev, hnil,
          List.dropWhile_cons, hpa]
    · by_cases hpa : p a = true
      · simp only [List.reverse_cons, List.dropWhile_append, he, if_false,
          Bool.false_eq_true, List.reverse_append, List.reverse_reverse,
          List.reverse_nil, List.nil_append, List.singleton_append,
          List.dropWhile_cons, hpa, if_true]
        exact ih
      · simp [List.reverse_cons, List.dropWhile_append, he,
          List.dropWhile_cons, hpa]

theorem jsTrim_idem (s : Str) : jsTrim (jsTrim s) = jsTrim s := by
  unfold jsTrim
  rw [dropWhile_revDrop_comm, dropWhile_dropWhile, List.reverse_reverse,
    dropWhile_revDrop_comm, dropWhile_dropWhile]

theorem mapGet_mapSet_self {α : Type} (m : List (Str × α)) (k : Str) (v : α) :
    mapGet (mapSet m k v) k = some v := by
  induction m with
  | nil => simp [mapSet, mapGet]
  | cons p rest ih =>
    by_cases h : p.1 = k
    · simp [mapSet, mapGet, h]
    · simp [mapSet, mapGet, h, ih]

theorem mapGet_eq_none_of_not_mem_keys {α : Type} (m : List (Str × α)) (k : Str)
    (h : k ∉ m.map Prod.fst) : mapGet m k = none := by
  induction m with
  | nil => rfl
  | cons p rest ih =>
    simp only [List.map_cons, List.mem_cons, not_or] at h
    have : p.1 ≠ k := fun hk => h.1 hk.symm
    simp [mapGet, this, ih h.2]

theorem mapSet_keys_subset {α : Type} (m : List (Str × α)) (k : Str) (v : α) :
    ∀ x ∈ (mapSet m k v).map Prod.fst, x ∈ m.map Prod.fst ∨ x = k := by
  induction m with
  | nil => simp [mapSet]
  | cons p rest ih =>
    by_cases h : p.1 = k
    · intro x hx
      simp only [mapSet, h, if_true, List.map_cons, List.mem_cons] at hx ⊢
      rcases hx with hx | hx
      · exact Or.inr hx
      · exact Or.inl (Or.inr hx)
    · intro x hx
      simp only [mapSet, h, if_false, List.map_cons, List.mem_cons] at hx ⊢
      rcases hx with hx | hx
      · exact Or.inl (Or.inl hx)
      · rcases ih x hx with h' | h'
        · exact Or.inl (Or.inr h')
        · exact Or.inr h'

theorem keysNodup_mapSet {α : Type} (m : List (Str × α)) (k : Str) (v : α)
    (h : (m.map Prod.fst).Nodup) : ((mapSet m k v).map Prod.fst).Nodup := by
  induction m with
  | nil => simp [mapSet]
  | cons p rest ih =>
    simp only [List.map_cons, List.nodup_cons] at h
    by_cases hk : p.1 = k
    · simp only [mapSet, hk, if_true, List.map_cons, List.nodup_cons]
      exact ⟨hk ▸ h.1, h.2⟩
    · simp only [mapSet, hk, if_false, List.map_cons, List.nodup_cons]
      refine ⟨fun hx => ?_, ih h.2⟩
      rcases mapSet_keys_subset rest k v p.1 hx with h' | h'
      · exact h.1 h'
      · exact hk h'

theorem mapGet_mapDelete_self {α : Type} (m : List (Str × α)) (k : Str)
    (h : (m.map Prod.fst).Nodup) : mapGet (mapDelete m k) k = none := by
  induction m with
  | nil => rfl
  | cons p rest ih =>
    simp only [List.map_cons, List.nodup_cons] at h
    by_cases hk : p.1 = k
    · simp only [mapDelete, hk, if_true]
      exact mapGet_eq_none_of_not_mem_keys rest k (hk ▸ h.1)
    · simp [mapDelete, mapGet, hk, ih h.2]

/-- C6: TTL cache read semantics — a `set(k, v, ttl)` followed immediately by
`get(k)` returns `v`; once the ttl has elapsed (`now > expiry`) the `get`
returns absent and removes the entry as a side effect; a `get` on a
never-set key (fresh cache) returns absent. -/
theorem C6_cache_ttl {T : Type} (c : SimpleCache T) (k : Str) (v : T)
    (now later t : Nat) (hnd : (c.cache.map Prod.fst).Nodup) (hTTL : 0 < c.TTL)
    (hlater : now + c.TTL < later) :
    (cacheGet (cacheSet c now k v) now k).1 = some v ∧
    (cacheGet (cacheSet c now k v) later k).1 = none ∧
    mapGet (cacheGet (cacheSet c now k v) later k).2.cache k = none ∧
    (cacheGet (⟨[], c.TTL⟩ : SimpleCache T) t k).1 = none := by
  have hget : mapGet (cacheSet c now k v).cache k
      = some { data := v, expiry := now + c.TTL } :=
    mapGet_mapSet_self c.cache k _
  refine ⟨?_, ?_, ?_, rfl⟩
  · simp [cacheGet, hget, Nat.not_lt.mpr (Nat.le_add_right now c.TTL)]
  · simp [cacheGet, hget, hlater]
  · simp only [cacheGet, hget, if_pos hlater]
    exact mapGet_mapDelete_self _ k (keysNodup_mapSet c.cache k _ hnd)

/-- Witness for C6 at a concrete cache, key, value and clock values. -/
theorem C6_cache_ttl_witness :
    (cacheGet (cacheSet (⟨[], 1000⟩ : SimpleCache Nat) 0 (str "k") 7) 0 (str "k")).1
        = some 7 ∧
    (cacheGet (cacheSet (⟨[], 1000⟩ : SimpleCache Nat) 0 (str "k") 7) 2000 (str "k")).1
        = none ∧
    mapGet (cacheGet (cacheSet (⟨[], 1000⟩ : SimpleCache Nat) 0 (str "k") 7)
        2000 (str "k")).2.cache (str "k") = none ∧
    (cacheGet (⟨[], 1000⟩ : SimpleCache Nat) 5 (str "k")).1 = none :=
  C6_cache_ttl ⟨[], 1000⟩ (str "k") 7 0 2000 5 (by simp) (by norm_num) (by norm_num)

/-- C10: every item produced by `extractRepoData` has a description that is
either null or a non-empty string of at most 300 characters (an empty raw
description becomes null) and at most 5 topics, and the normalized list has
the same length and order as the raw input page. -/
theorem C10_normalization (data : List RawRepo) (repo : StarredRepo)
    (item : RawRepo) (i : Nat) (hmem : repo ∈ extractRepoData data)
    (hi : i < data.length) (hi2 : i < (extractRepoData data).length) :
    (extractRepoData data).length = data.length ∧
    (extractRepoData data).get ⟨i, hi2⟩ = extractOne (data.get ⟨i, hi⟩) ∧
    (repo.description = none ∨
      ∃ d, repo.description = some d ∧ d ≠ [] ∧ d.length ≤ 300) ∧
    repo.topics.length ≤ 5 ∧
    (item.description = some [] → (extractOne item).description = none) := by
  obtain ⟨raw, hraw, rfl⟩ := List.mem_map.1 hmem
  refine ⟨List.length_map data extractOne, ?_, ?_, ?_, ?_⟩
  · simp [extractRepoData, List.get_eq_getElem, List.getElem_map]
  · cases hd : raw.description with
    | none => exact Or.inl (by simp [extractOne, hd])
    | some d =>
      by_cases h300 : d.take 300 = []
      · exact Or.inl (by simp [extractOne, hd, h300])
      · refine Or.inr ⟨d.take 300, by simp [extractOne, hd, h300], h300, ?_⟩
        rw [List.length_take]
        exact min_le_left _ _
  · show ((raw.topics.getD []).take 5).length ≤ 5
    rw [List.length_take]
    exact min_le_left _ _
  · intro h
    simp [extractOne, h]

/-- Witness for C10 at a one-item page carrying a description and six
topics. -/
theorem C10_normalization_witness :
    (extractRepoData [⟨str "o/r", some (str "hi"), some (str "L"),
        some [str "a", str "b", str "c", str "d", str "e", str "f"], 10⟩]).length = 1 ∧
    (extractRepoData [⟨str "o/r", some (str "hi"), some (str "L"),
        some [str "a", str "b", str "c", str "d", str "e", str "f"], 10⟩]).get
        ⟨0, by simp [extractRepoData]⟩ =
      extractOne (([⟨str "o/r", some (str "hi"), some (str "L"),
        some [str "a", str "b", str "c", str "d", str "e", str "f"], 10⟩] :
          List RawRepo).get ⟨0, by simp⟩) ∧
    ((extractOne ⟨str "o/r", some (str "hi"), some (str "L"),
        some [str "a", str "b", str "c", str "d", str "e", str "f"], 10⟩).description
          = none ∨
      ∃ d, (extractOne ⟨str "o/r", some (str "hi"), some (str "L"),
        some [str "a", str "b", str "c", str "d", str "e", str "f"], 10⟩).description
          = some d ∧ d ≠ [] ∧ d.length ≤ 300) ∧
    (extractOne ⟨str "o/r", some (str "hi"), some (str "L"),
        some [str "a", str "b", str "c", str "d", str "e", str "f"], 10⟩).topics.length
        ≤ 5 ∧
    ((⟨str "o/r", some (str "hi"), some (str "L"),
        some [str "a", str "b", str "c", str "d", str "e", str "f"], 10⟩ :
          RawRepo).description = some [] →
      (extractOne ⟨str "o/r", some (str "hi"), some (str "L"),
        some [str "a", str "b", str "c", str "d", str "e", str "f"], 10⟩).description
        = none) := by
  have h := C10_normalization
    [⟨str "o/r", some (str "hi"), some (str "L"),
      some [str "a", str "b", str "c", str "d", str "e", str "f"], 10⟩]
    (extractOne ⟨str "o/r", some (str "hi"), some (str "L"),
      some [str "a", str "b", str "c", str "d", str "e", str "f"], 10⟩)
    ⟨str "o/r", some (str "hi"), some (str "L"),
      some [str "a", str "b", str "c", str "d", str "e", str "f"], 10⟩
    0 (by simp [extractRepoData]) (by simp) (by simp [extractRepoData])
  exact h

/-- C8: an empty starred-item sequence short-circuits the pipeline — no
categorization is invoked (call count 0) and the result is the no-stars
sentinel carrying item count 0 and the informational dev fact, not a
category map. -/
theorem C8_no_stars (categorize : List StarredRepo → CategoryMap) (fact : Str) :
    postPipeline [] categorize fact =
      (.noStars (str "No starred repositories found") 0 fact, 0) := rfl

/-- C9: when the item list is non-empty and categorization produced an empty
map, the request still succeeds with a single Uncategorized category holding
every fetched full name. -/
theorem C9_uncategorized (starred : List StarredRepo)
    (categorize : List StarredRepo → CategoryMap) (fact : Str)
    (hne : starred ≠ []) (hfail : categorize starred = []) :
    postPipeline starred categorize fact =
      (.categorized (str "Successfully categorized starred projects")
        starred.length 1
        [(str "Uncategorized", starred.map fun repo => repo.full_name)], 1) := by
  have hlen : starred.length ≠ 0 := fun h => hne (List.length_eq_zero.mp h)
  simp [postPipeline, hlen, hfail]

/-- Witness for C9 at a one-item list and an always-failing categorizer. -/
theorem C9_uncategorized_witness :
    postPipeline [⟨str "o/r", none, none, [], 0⟩] (fun _ => []) (str "f") =
      (.categorized (str "Successfully categorized starred projects") 1 1
        [(str "Uncategorized", [str "o/r"])], 1) := by
  have h := C9_uncategorized [⟨str "o/r", none, none, [], 0⟩] (fun _ => [])
    (str "f") (by simp) rfl
  simpa using h

/-- C3 counterexample: at score 0 and total item count 0 the computed batch
size is 0, below 1 — the claim's "never below 1" fails for totalCount 0. -/
theorem C3_batchSize_counterexample :
    getOptimalBatchSize 0 0 = 0 ∧ ¬ 1 ≤ getOptimalBatchSize 0 0 := by
  norm_num [getOptimalBatchSize]

/-- C3 amended: the batch size always equals the base `200 − floor(score ×
150)` clamped to `min(totalCount, base)` when `totalCount < 50` and to
`min(150, base)` when `totalCount > 300`; and it is at least 1 whenever the
score lies in [0,1] and at least one item is present. -/
theorem C3_batchSize_amended (s : ℚ) (total : Nat)
    (h0 : 0 ≤ s) (h1 : s ≤ 1) (ht : 1 ≤ total) :
    getOptimalBatchSize s total =
      (if total < 50 then min (total : ℤ) (200 - Int.floor (s * 150))
       else if total > 300 then min 150 (200 - Int.floor (s * 150))
       else 200 - Int.floor (s * 150)) ∧
    1 ≤ getOptimalBatchSize s total := by
  have hup : (⌊s * 150⌋ : ℤ) ≤ 150 := by
    have hle : s * 150 ≤ (150 : ℚ) := by nlinarith
    calc (⌊s * 150⌋ : ℤ) ≤ ⌊(150 : ℚ)⌋ := Int.floor_le_floor hle
    _ = 150 := by norm_num
  refine ⟨rfl, ?_⟩
  unfold getOptimalBatchSize
  by_cases hlt : total < 50
  · rw [if_pos hlt]
    refine le_min ?_ (by omega)
    exact_mod_cast ht
  · rw [if_neg hlt]
    by_cases hgt : total > 300
    · rw [if_pos hgt]
      exact le_min (by norm_num) (by omega)
    · rw [if_neg hgt]
      omega

/-- Witness for C3 amended at score 1/2 and 100 items. -/
theorem C3_batchSize_amended_witness :
    getOptimalBatchSize (1/2) 100 =
      (if (100 : Nat) < 50 then min ((100 : Nat) : ℤ) (200 - Int.floor ((1/2 : ℚ) * 150))
       else if (100 : Nat) > 300 then min 150 (200 - Int.floor ((1/2 : ℚ) * 150))
       else 200 - Int.floor ((1/2 : ℚ) * 150)) ∧
    1 ≤ getOptimalBatchSize (1/2) 100 :=
  C3_batchSize_amended (1/2) 100 (by norm_num) (by norm_num) (by norm_num)

/-- C4 counterexample: a single repository with four topics yields complexity
score 6/5, outside the claimed interval [0,1]. -/
theorem C4_score_counterexample :
    1 < calculateComplexity
      [⟨str "a", [], [], [str "t", str "u", str "v", str "w"]⟩] := by
  norm_num [calculateComplexity, descWeight, langWeight, topicWeight,
    List.dedup_nil]

/-- C4 amended: the complexity score is the stated weighted sum and is always
nonnegative; it is bounded by `7/10 + 3/10 · T` for any bound `T` on the
per-item topic count (the claimed upper bound 1 therefore holds only when
topic counts stay at most 1, not in general). -/
theorem C4_score_amended (repos : List RepoDescription) (T : ℚ)
    (hT0 : 0 ≤ T) (hT : ∀ r ∈ repos, (r.topics.length : ℚ) ≤ T) :
    0 ≤ calculateComplexity repos ∧
    calculateComplexity repos ≤ 7 / 10 + 3 / 10 * T := by
  by_cases hlen : repos.length = 0
  · simp only [calculateComplexity, hlen, if_true]
    exact ⟨le_refl 0, by nlinarith⟩
  · simp only [calculateComplexity, hlen, if_false]
    have hnpos : (0 : ℚ) < (repos.length : ℚ) := by
      exact_mod_cast Nat.pos_of_ne_zero hlen
    have hA0 : 0 ≤ (repos.map fun r => ((r.description.length : ℚ))).sum := by
      refine List.sum_nonneg fun x hx => ?_
      obtain ⟨r, _, rfl⟩ := List.mem_map.1 hx
      positivity
    have hm0 : 0 ≤ min ((repos.map fun r => ((r.description.length : ℚ))).sum
        / (repos.length : ℚ) / 100) 1 :=
      le_min (div_nonneg (div_nonneg hA0 hnpos.le) (by norm_num)) zero_le_one
    have hm1 : min ((repos.map fun r => ((r.description.length : ℚ))).sum
        / (repos.length : ℚ) / 100) 1 ≤ 1 := min_le_right _ _
    have hBle : ((((repos.map fun r => r.language).filter
        fun l => l ≠ []).dedup.length : ℚ)) ≤ (repos.length : ℚ) := by
      have h1 : (((repos.map fun r => r.language).filter
          fun l => l ≠ []).dedup).length ≤ repos.length := by
        calc (((repos.map fun r => r.language).filter fun l => l ≠ []).dedup).length
            ≤ (((repos.map fun r => r.language).filter fun l => l ≠ [])).length :=
              (List.dedup_sublist _).length_le
        _ ≤ ((repos.map fun r => r.language)).length := (List.filter_sublist _).length_le
        _ = repos.length := List.length_map _ _
      exact_mod_cast h1
    have hBdiv0 : 0 ≤ ((((repos.map fun r => r.language).filter
        fun l => l ≠ []).dedup.length : ℚ)) / (repos.length : ℚ) := by positivity
    have hBdiv1 : ((((repos.map fun r => r.language).filter
        fun l => l ≠ []).dedup.length : ℚ)) / (repos.length : ℚ) ≤ 1 :=
      (div_le_one hnpos).mpr hBle
    have hC0 : 0 ≤ (repos.map fun r => ((r.topics.length : ℚ))).sum := by
      refine List.sum_nonneg fun x hx => ?_
      obtain ⟨r, _, rfl⟩ := List.mem_map.1 hx
      positivity
    have hCle : (repos.map fun r => ((r.topics.length : ℚ))).sum
        ≤ T * (repos.length : ℚ) := by
      have hmem : ∀ x ∈ repos.map fun r => ((r.topics.length : ℚ)), x ≤ T := by
        intro x hx
        obtain ⟨r, hr, rfl⟩ := List.mem_map.1 hx
        exact hT r hr
      have h1 := List.sum_le_card_nsmul (repos.map fun r => ((r.topics.length : ℚ)))
        T hmem
      rw [List.length_map, nsmul_eq_mul] at h1
      linarith [h1]
    have hCdiv0 : 0 ≤ (repos.map fun r => ((r.topics.length : ℚ))).sum
        / (repos.length : ℚ) := div_nonneg hC0 hnpos.le
    have hCdiv1 : (repos.map fun r => ((r.topics.length : ℚ))).sum
        / (repos.length : ℚ) ≤ T := by
      rw [div_le_iff₀ hnpos]
      linarith [hCle]
    rw [descWeight, langWeight, topicWeight]
    constructor <;> nlinarith [hm0, hm1, hBdiv0, hBdiv1, hCdiv0, hCdiv1]

/-- Witness for C4 amended at a one-item list with one topic and bound 1. -/
theorem C4_score_amended_witness :
    0 ≤ calculateComplexity [⟨str "a", str "hello", str "L", [str "t"]⟩] ∧
    calculateComplexity [⟨str "a", str "hello", str "L", [str "t"]⟩]
      ≤ 7 / 10 + 3 / 10 * 1 :=
  C4_score_amended [⟨str "a", str "hello", str "L", [str "t"]⟩] 1
    (by norm_num) (by intro r hr; simp at hr; subst hr; norm_num)

theorem fallbackDispatch_snd {Text : Type} (parse : Text → Option CategoryMap)
    (fallback : LLMCall Text) : (fallbackDispatch parse fallback).2 = 1 := by
  unfold fallbackDispatch
  cases hr : race fallback 90000 with
  | none => rfl
  | some r =>
    cases r with
    | none => rfl
    | some t =>
      cases hp : parse t with
      | none => simp [hp]
      | some m => simp [hp]

theorem fallbackDispatch_empty {Text : Type} (parse : Text → Option CategoryMap)
    (fallback : LLMCall Text) (hf : callFails parse 90000 fallback) :
    (fallbackDispatch parse fallback).1 = [] := by
  unfold fallbackDispatch
  rcases hf with h | h | ⟨t, ht, hpt⟩
  · have hr : race fallback 90000 = none := by simp [race, Nat.not_lt.mpr h]
    rw [hr]
  · by_cases hd : fallback.duration < 90000
    · have hr : race fallback 90000 = some none := by simp [race, hd, h]
      rw [hr]
    · have hr : race fallback 90000 = none := by simp [race, hd]
      rw [hr]
  · by_cases hd : fallback.duration < 90000
    · have hr : race fallback 90000 = some (some t) := by simp [race, hd, ht]
      rw [hr]
      simp [hpt]
    · have hr : race fallback 90000 = none := by simp [race, hd]
      rw [hr]

/-- C2: per-batch categorization never throws — when the primary dispatch
fails by unparsable text, a transport error, or its 60000 ms timeout,
exactly one fallback dispatch (racing the 90000 ms timer) is made; and when
that fallback also fails in any way, the batch's result is the empty
category map, with no further retries (the fallback count stays 1). -/
theorem C2_batch_fallback {Text : Type} (parse : Text → Option CategoryMap)
    (primary fallback : LLMCall Text) (hp : callFails parse 60000 primary) :
    (processBatch parse primary fallback).2 = 1 ∧
    (callFails parse 90000 fallback →
      (processBatch parse primary fallback).1 = []) := by
  have hred : processBatch parse primary fallback = fallbackDispatch parse fallback := by
    unfold processBatch
    rcases hp with h | h | ⟨t, ht, hpt⟩
    · have hr : race primary 60000 = none := by simp [race, Nat.not_lt.mpr h]
      rw [hr]
    · by_cases hd : primary.duration < 60000
      · have hr : race primary 60000 = some none := by simp [race, hd, h]
        rw [hr]
      · have hr : race primary 60000 = none := by simp [race, hd]
        rw [hr]
    · by_cases hd : primary.duration < 60000
      · have hr : race primary 60000 = some (some t) := by simp [race, hd, ht]
        rw [hr]
        simp [hpt]
      · have hr : race primary 60000 = none := by simp [race, hd]
        rw [hr]
  rw [hred]
  exact ⟨fallbackDispatch_snd parse fallback,
    fun hf => fallbackDispatch_empty parse fallback hf⟩

/-- Witness for C2 with a primary whose text is unparsable and a fallback
that exceeds the 90000 ms timeout. -/
theorem C2_batch_fallback_witness :
    (processBatch (fun _ : Unit => (none : Option CategoryMap))
      ⟨0, some ()⟩ ⟨100000, none⟩).2 = 1 ∧
    (processBatch (fun _ : Unit => (none : Option CategoryMap))
      ⟨0, some ()⟩ ⟨100000, none⟩).1 = [] := by
  have h := C2_batch_fallback (fun _ : Unit => (none : Option CategoryMap))
    ⟨0, some ()⟩ ⟨100000, none⟩ (Or.inr (Or.inr ⟨(), rfl, rfl⟩))
  exact ⟨h.1, h.2 (Or.inl (by norm_num))⟩

theorem arriveN_inv (m : Nat) : ∀ (s : CoalState), s.pending = some 0 →
    s.nextRun = 1 → (∀ r ∈ s.waiters, r = 0) →
    (arriveN m s).pending = some 0 ∧ (arriveN m s).nextRun = 1 ∧
    (∀ r ∈ (arriveN m s).waiters, r = 0) ∧
    (arriveN m s).waiters.length = s.waiters.length + m := by
  induction m with
  | zero => intro s h1 h2 h3; exact ⟨h1, h2, h3, rfl⟩
  | succ k ih =>
    intro s h1 h2 h3
    have harr : arrive s = { s with waiters := s.waiters ++ [0] } := by
      unfold arrive
      rw [h1]
    have hstep : arriveN (k + 1) s = arriveN k (arrive s) := rfl
    have h := ih (arrive s) (by rw [harr]; exact h1) (by rw [harr]; exact h2) ?_
    · rw [hstep]
      refine ⟨h.1, h.2.1, h.2.2.1, ?_⟩
      rw [h.2.2.2, harr]
      simp only [List.length_append, List.length_cons, List.length_nil]
      omega
    · rw [harr]
      intro r hr
      rcases List.mem_append.1 hr with hr | hr
      · exact h3 r hr
      · simpa using hr

/-- C7: request coalescing under the event-loop semantics — when `n ≥ 1`
callers with the same key arrive while no run has completed, the pipeline
is invoked exactly once (run counter 1), every caller awaits run 0 (so all
receive one shared result), and a caller arriving after the shared run has
failed re-triggers the pipeline (run counter becomes 2). -/
theorem C7_coalescing {α : Type} (n : Nat) (f : Nat → α) (x : α) (hn : 1 ≤ n)
    (hx : x ∈ (arriveN n initState).waiters.map f) :
    (arriveN n initState).nextRun = 1 ∧
    (arriveN n initState).waiters.length = n ∧
    x = f 0 ∧
    (arriveAfterFailure (arriveN n initState)).nextRun = 2 := by
  obtain ⟨k, rfl⟩ : ∃ k, n = k + 1 := ⟨n - 1, by omega⟩
  have h0 : arriveN (k + 1) initState = arriveN k (arrive initState) := rfl
  have harr : arrive initState = ⟨some 0, 1, [0]⟩ := rfl
  have hinv := arriveN_inv k ⟨some 0, 1, [0]⟩ rfl rfl (by intro r hr; simpa using hr)
  rw [h0, harr]
  refine ⟨hinv.2.1, ?_, ?_, ?_⟩
  · rw [hinv.2.2.2]
    simp only [List.length_cons, List.length_nil]
    omega
  · rw [h0, harr] at hx
    obtain ⟨r, hr, rfl⟩ := List.mem_map.1 hx
    rw [hinv.2.2.1 r hr]
  · simp only [arriveAfterFailure, hinv.2.1]

/-- Witness for C7 with three concurrent callers. -/
theorem C7_coalescing_witness :
    (arriveN 3 initState).nextRun = 1 ∧
    (arriveN 3 initState).waiters.length = 3 ∧
    (0 : Nat) = (fun i : Nat => i) 0 ∧
    (arriveAfterFailure (arriveN 3 initState)).nextRun = 2 :=
  C7_coalescing 3 (fun i : Nat => i) 0 (by norm_num) (by decide)

theorem flatMap_congr' {α β : Type} {l : List α} {f g : α → List β}
    (h : ∀ x ∈ l, f x = g x) : l.flatMap f = l.flatMap g := by
  induction l with
  | nil => rfl
  | cons a t ih =>
    simp only [List.flatMap_cons]
    rw [h a (by simp), ih fun x hx => h x (by simp [hx])]

theorem range'_flatMap_getD {α β : Type} (g : α → List β) (d : α) :
    ∀ (l : List α) (s : Nat),
      (List.range' s l.length).flatMap (fun p => g (l.getD (p - s) d))
        = l.flatMap g := by
  intro l
  induction l with
  | nil => intro s; rfl
  | cons a t ih =>
    intro s
    rw [List.length_cons, List.range'_succ, List.flatMap_cons]
    have h1 : g ((a :: t).getD (s - s) d) = g a := by
      rw [Nat.sub_self, List.getD_cons_zero]
    rw [h1]
    have h2 : (List.range' (s + 1) t.length).flatMap
          (fun p => g ((a :: t).getD (p - s) d))
        = (List.range' (s + 1) t.length).flatMap
          (fun p => g (t.getD (p - (s + 1)) d)) := by
      refine flatMap_congr' fun p hp => ?_
      obtain ⟨i, hi, rfl⟩ := List.mem_range'.1 hp
      have hstep : s + 1 + 1 * i - s = (s + 1 + 1 * i - (s + 1)) + 1 := by omega
      rw [hstep, List.getD_cons_succ]
    rw [h2, ih (s + 1), List.flatMap_cons]

theorem le_ceilDiv_mul (m W : Nat) (hW : 1 ≤ W) :
    m ≤ ((m + W - 1) / W) * W := by
  have h1 := Nat.div_add_mod (m + W - 1) W
  have h2 : (m + W - 1) % W < W := Nat.mod_lt _ (by omega)
  rw [Nat.mul_comm]
  set q := (m + W - 1) / W
  set r := (m + W - 1) % W
  set x := W * q with hx
  omega

theorem fetchWaves_eq (pages : List (List RawRepo)) (W totalPages : Nat)
    (hW : 1 ≤ W) :
    ∀ (n b : Nat), totalPages ≤ (b + n) * W + 1 →
      fetchWaves pages W totalPages n b =
        (List.range' (b * W + 2) (totalPages - 1 - b * W)).flatMap
          (fun p => extractRepoData (getPage pages p)) := by
  intro n
  induction n with
  | zero =>
    intro b hb
    have hb' : totalPages ≤ b * W + 1 := by simpa using hb
    set x := b * W with hx
    have hzero : totalPages - 1 - x = 0 := by omega
    rw [hzero]
    rfl
  | succ k ih =>
    intro b hb
    simp only [fetchWaves]
    have hb1W : (b + 1) * W = b * W + W := Nat.succ_mul b W
    set x := b * W with hx
    have hmin : x + 2 + W - 1 = x + W + 1 := by omega
    by_cases hcase : x + W + 1 ≤ totalPages
    · have hend : min (x + 2 + W - 1) totalPages = x + W + 1 := by
        rw [hmin]
        exact min_eq_left hcase
      have hcnt : x + W + 1 + 1 - (x + 2) = W := by omega
      have hih : totalPages ≤ (b + 1 + k) * W + 1 := by
        have : b + (k + 1) = b + 1 + k := by omega
        rw [this] at hb
        exact hb
      rw [hend, hcnt, ih (b + 1) hih, hb1W]
      have hsplit : x + W + 2 = (x + 2) + 1 * W := by omega
      have hc2 : totalPages - 1 - (x + W) + W = totalPages - 1 - x := by omega
      rw [hsplit, ← List.flatMap_append, List.range'_append, hc2]
    · have hle : totalPages ≤ x + W := by omega
      have hend : min (x + 2 + W - 1) totalPages = totalPages := by
        rw [hmin]
        exact min_eq_right (by omega)
      have h6 : x + W ≤ (b + 1 + k) * W := by
        have h7 : (b + 1) * W ≤ (b + 1 + k) * W :=
          Nat.mul_le_mul_right W (Nat.le_add_right _ _)
        rw [hb1W] at h7
        exact h7
      have hih : totalPages ≤ (b + 1 + k) * W + 1 :=
        le_trans hle (le_trans h6 (Nat.le_succ _))
      rw [hend, ih (b + 1) hih, hb1W]
      have hz : totalPages - 1 - (x + W) = 0 := by omega
      have hc : totalPages + 1 - (x + 2) = totalPages - 1 - x := by omega
      rw [hz, hc]
      simp

/-- C5: pagination completeness and order — over any synthetic upstream
dataset (a page 1 that is empty only when it is the sole page), the
collector returns exactly the normalized items of every page, concatenated
in original page order, for every wave width `W ≥ 1`; in particular the
item count is the sum of the page sizes. -/
theorem C5_pagination (pages : List (List RawRepo)) (W : Nat) (hW : 1 ≤ W)
    (hfirst : pages.head? = some [] → pages.tail = []) :
    getAllStarredRepos pages W = pages.flatMap extractRepoData ∧
    (getAllStarredRepos pages W).length = (pages.map List.length).sum := by
  have hmain : getAllStarredRepos pages W = pages.flatMap extractRepoData := by
    cases pages with
    | nil => rfl
    | cons firstPage rest =>
      by_cases hfp : firstPage.length = 0
      · have hfe : firstPage = [] := List.length_eq_zero.mp hfp
        subst hfe
        have hre : rest = [] := hfirst rfl
        subst hre
        rfl
      · by_cases hone : rest = []
        · subst hone
          simp [getAllStarredRepos, hfp, extractRepoData]
        · have hpos : 0 < rest.length := List.length_pos.mpr hone
          have hlen1 : ¬ ((firstPage :: rest).length ≤ 1) := by
            simp only [List.length_cons]
            omega
          simp only [getAllStarredRepos, if_neg hfp, if_neg hlen1]
          have hcover : (firstPage :: rest).length ≤
              (0 + (((firstPage :: rest).length - 1 + W - 1) / W)) * W + 1 := by
            have h1 := le_ceilDiv_mul ((firstPage :: rest).length - 1) W hW
            rw [Nat.zero_add]
            set z := (((firstPage :: rest).length - 1 + W - 1) / W) * W
            simp only [List.length_cons] at h1 ⊢
            omega
          rw [fetchWaves_eq (firstPage :: rest) W (firstPage :: rest).length hW
            _ 0 hcover]
          simp only [Nat.zero_mul, Nat.zero_add, Nat.sub_zero, List.length_cons,
            Nat.add_sub_cancel]
          have hcongr : (List.range' 2 rest.length).flatMap
                (fun p => extractRepoData (getPage (firstPage :: rest) p))
              = (List.range' 2 rest.length).flatMap
                (fun p => extractRepoData (rest.getD (p - 2) [])) := by
            refine flatMap_congr' fun p hp => ?_
            obtain ⟨i, hi, rfl⟩ := List.mem_range'.1 hp
            have hp1 : 2 + 1 * i - 1 = (2 + 1 * i - 2) + 1 := by omega
            rw [getPage, hp1, List.getD_cons_succ]
          rw [hcongr, range'_flatMap_getD extractRepoData [] rest 2,
            List.flatMap_cons]
  refine ⟨hmain, ?_⟩
  rw [hmain, List.length_flatMap]
  congr 1
  refine List.map_congr_left fun page hpage => ?_
  simp [extractRepoData, Function.comp]
theorem joinVals_append (m₁ m₂ : CategoryMap) :
    joinVals (m₁ ++ m₂) = joinVals m₁ ++ joinVals m₂ := by
  simp [joinVals, List.flatMap_append]

theorem joinVals_ensureCat (m : CategoryMap) (k : Str) :
    joinVals (ensureCat m k) = joinVals m := by
  unfold ensureCat
  cases h : mapGet m k with
  | some v => rfl
  | none => simp [joinVals_append, joinVals]

theorem joinVals_pushRepo (m : CategoryMap) (k r : Str) :
    joinVals (pushRepo m k r) = joinVals m ∨
      (joinVals (pushRepo m k r)).Perm (r :: joinVals m) := by
  induction m with
  | nil => exact Or.inl rfl
  | cons p rest ih =>
    obtain ⟨k', v⟩ := p
    by_cases h : k' = k
    · right
      simp only [pushRepo, h, if_true, joinVals, List.flatMap_cons]
      exact List.Perm.append_right _ (List.perm_append_singleton r v)
    · simp only [pushRepo, h, if_false, joinVals, List.flatMap_cons]
      rcases ih with h1 | h1
      · left
        rw [show (pushRepo rest k r).flatMap (fun p => p.2)
            = rest.flatMap (fun p => p.2) from h1]
      · right
        exact (List.Perm.append_left v h1).trans List.perm_middle

theorem addReposGlobal_inv (k : Str) :
    ∀ (rs : List Str) (m : CategoryMap) (seen : List Str),
      (joinVals m).Nodup → (∀ x ∈ joinVals m, x ∈ seen) →
      (joinVals (addReposGlobal m seen k rs).1).Nodup ∧
      (∀ x ∈ joinVals (addReposGlobal m seen k rs).1,
        x ∈ (addReposGlobal m seen k rs).2) := by
  intro rs
  induction rs with
  | nil => intro m seen h1 h2; exact ⟨h1, h2⟩
  | cons r rs ih =>
    intro m seen h1 h2
    by_cases hr : r ∈ seen
    · simp only [addReposGlobal, if_pos hr]
      exact ih m seen h1 h2
    · simp only [addReposGlobal, if_neg hr]
      rcases joinVals_pushRepo m k r with hp | hp
      · refine ih _ _ (by rw [hp]; exact h1) ?_
        rw [hp]
        intro x hx
        exact List.mem_cons_of_mem r (h2 x hx)
      · refine ih _ _ ?_ ?_
        · refine hp.symm.nodup ?_
          rw [List.nodup_cons]
          exact ⟨fun hmem => hr (h2 r hmem), h1⟩
        · intro x hx
          rcases List.mem_cons.mp (hp.mem_iff.mp hx) with h3 | h3
          · exact h3 ▸ List.mem_cons_self r seen
          · exact List.mem_cons_of_mem r (h2 x h3)

theorem mergeEntriesRoute_inv :
    ∀ (entries : List (Str × List Str)) (m : CategoryMap) (seen : List Str),
      (joinVals m).Nodup → (∀ x ∈ joinVals m, x ∈ seen) →
      (joinVals (mergeEntriesRoute m seen entries).1).Nodup ∧
      (∀ x ∈ joinVals (mergeEntriesRoute m seen entries).1,
        x ∈ (mergeEntriesRoute m seen entries).2) := by
  intro entries
  induction entries with
  | nil => intro m seen h1 h2; exact ⟨h1, h2⟩
  | cons e rest ih =>
    intro m seen h1 h2
    obtain ⟨category, repos⟩ := e
    simp only [mergeEntriesRoute]
    have h3 : (joinVals (ensureCat m category)).Nodup := by
      rw [joinVals_ensureCat]; exact h1
    have h4 : ∀ x ∈ joinVals (ensureCat m category), x ∈ seen := by
      rw [joinVals_ensureCat]; exact h2
    have h5 := addReposGlobal_inv category repos (ensureCat m category) seen h3 h4
    exact ih _ _ h5.1 h5.2

theorem mergeBatchesRoute_inv :
    ∀ (bs : List CategoryMap) (acc : CategoryMap × List Str),
      (joinVals acc.1).Nodup → (∀ x ∈ joinVals acc.1, x ∈ acc.2) →
      (joinVals (mergeBatchesRoute bs acc).1).Nodup := by
  intro bs
  induction bs with
  | nil => intro acc h1 _; exact h1
  | cons b bs ih =>
    intro acc h1 h2
    simp only [mergeBatchesRoute]
    have h := mergeEntriesRoute_inv b acc.1 acc.2 h1 h2
    exact ih _ h.1 h.2

theorem joinVals_pruneEmpty_sublist (m : CategoryMap) :
    (joinVals (pruneEmpty m)).Sublist (joinVals m) := by
  induction m with
  | nil => exact List.Sublist.refl _
  | cons p rest ih =>
    simp only [pruneEmpty, List.filter_cons]
    by_cases h : (!p.2.isEmpty) = true
    · rw [if_pos h]
      simp only [joinVals, List.flatMap_cons]
      exact List.Sublist.append_left ih p.2
    · rw [if_neg h]
      refine List.Sublist.trans ih ?_
      simp only [joinVals, List.flatMap_cons]
      exact List.sublist_append_right p.2 _

theorem mergeRoute_nodup (batchResults : List CategoryMap) :
    (joinVals (mergeRoute batchResults)).Nodup := by
  have h := mergeBatchesRoute_inv batchResults ([], [])
    (by simp [joinVals]) (by simp [joinVals])
  exact List.Nodup.sublist (joinVals_pruneEmpty_sublist _) h

theorem pushRepo_svcInv (m : CategoryMap) (k r : Str) (hP : svcInv m)
    (hr : r ∉ (mapGet m k).getD []) : svcInv (pushRepo m k r) := by
  induction m with
  | nil => intro p hp; simp [pushRepo] at hp
  | cons q rest ih =>
    obtain ⟨k', v⟩ := q
    by_cases h : k' = k
    · subst h
      have hrv : r ∉ v := by simpa [mapGet] using hr
      intro p hp
      simp only [pushRepo, if_pos rfl] at hp
      rcases List.mem_cons.mp hp with hp | hp
      · subst hp
        refine ⟨(hP (k', v) (by simp)).1, ?_⟩
        refine (List.perm_append_singleton r v).symm.nodup ?_
        rw [List.nodup_cons]
        exact ⟨hrv, (hP (k', v) (by simp)).2⟩
      · exact hP p (List.mem_cons_of_mem _ hp)
    · intro p hp
      simp only [pushRepo, if_neg h] at hp
      rcases List.mem_cons.mp hp with hp | hp
      · subst hp
        exact hP (k', v) (by simp)
      · have hP' : svcInv rest := fun q hq => hP q (List.mem_cons_of_mem _ hq)
        have hr' : r ∉ (mapGet rest k).getD [] := by simpa [mapGet, h] using hr
        exact ih hP' hr' p hp

theorem ensureCat_svcInv (m : CategoryMap) (k : Str) (hP : svcInv m)
    (hk : jsTrim k = k) : svcInv (ensureCat m k) := by
  unfold ensureCat
  cases h : mapGet m k with
  | some v => exact hP
  | none =>
    intro p hp
    rcases List.mem_append.mp hp with hp | hp
    · exact hP p hp
    · simp only [List.mem_singleton] at hp
      subst hp
      exact ⟨hk, List.nodup_nil⟩

theorem addReposSvc_svcInv (k : Str) :
    ∀ (rs : List Str) (m : CategoryMap), svcInv m →
      svcInv (addReposSvc m k rs) := by
  intro rs
  induction rs with
  | nil => intro m h; exact h
  | cons r rs ih =>
    intro m h
    by_cases hr : r ∈ (mapGet m k).getD []
    · simp only [addReposSvc, if_pos hr]
      exact ih m h
    · simp only [addReposSvc, if_neg hr]
      exact ih _ (pushRepo_svcInv m k r h hr)

theorem mergeEntriesSvc_svcInv :
    ∀ (entries : List (Str × List Str)) (m : CategoryMap), svcInv m →
      svcInv (mergeEntriesSvc m entries) := by
  intro entries
  induction entries with
  | nil => intro m h; exact h
  | cons e rest ih =>
    intro m h
    obtain ⟨category, repos⟩ := e
    simp only [mergeEntriesSvc]
    exact ih _ (addReposSvc_svcInv (jsTrim category) repos _
      (ensureCat_svcInv m (jsTrim category) h (jsTrim_idem category)))

theorem foldl_mergeEntriesSvc_svcInv :
    ∀ (bs : List CategoryMap) (m : CategoryMap), svcInv m →
      svcInv (List.foldl mergeEntriesSvc m bs) := by
  intro bs
  induction bs with
  | nil => intro m h; exact h
  | cons b bs ih =>
    intro m h
    rw [List.foldl_cons]
    exact ih _ (mergeEntriesSvc_svcInv b m h)

/-- C1 counterexample: the route merge keeps two separate categories whose
names differ only by surrounding whitespace (they are not unioned), and the
service merge records the same full name in two different categories (a
name is not checked against the merged output as a whole). -/
theorem C1_merge_counterexample :
    mergeRoute [[(str "Web", [str "o/a"])], [(str " Web", [str "o/b"])]] =
      [(str "Web", [str "o/a"]), (str " Web", [str "o/b"])] ∧
    jsTrim (str " Web") = jsTrim (str "Web") ∧ str " Web" ≠ str "Web" ∧
    mergeBatchResults [[(str "A", [str "o/x"])], [(str "B", [str "o/x"])]] =
      [(str "A", [str "o/x"]), (str "B", [str "o/x"])] := by
  decide

/-- C1 amended: the route merge records each full name at most once in the
merged output as a whole (so never twice within a single category), but
unions only exactly equal category names; the service merge unions
categories that are equal after trimming (every merged key is its own trim,
so trim-equal keys coincide) and never holds a full name twice within one
category, though the same name may appear in different categories. -/
theorem C1_merge_amended (batchResults : List CategoryMap) (p q : Str × List Str)
    (hp : p ∈ mergeBatchResults batchResults)
    (hq : q ∈ mergeBatchResults batchResults) :
    (joinVals (mergeRoute batchResults)).Nodup ∧
    jsTrim p.1 = p.1 ∧ p.2.Nodup ∧
    (jsTrim p.1 = jsTrim q.1 → p.1 = q.1) := by
  have hsvc : svcInv (mergeBatchResults batchResults) :=
    foldl_mergeEntriesSvc_svcInv batchResults [] (by intro x hx; simp at hx)
  have h1 := hsvc p hp
  have h2 := hsvc q hq
  refine ⟨mergeRoute_nodup batchResults, h1.1, h1.2, fun h => ?_⟩
  calc p.1 = jsTrim p.1 := h1.1.symm
  _ = jsTrim q.1 := h
  _ = q.1 := h2.1

/-- Witness for C1 amended at a concrete batch list and entry. -/
theorem C1_merge_amended_witness :
    (joinVals (mergeRoute [[(str "Web", [str "o/a"])]])).Nodup ∧
    jsTrim (str "Web", [str "o/a"]).1 = (str "Web", [str "o/a"]).1 ∧
    (str "Web", [str "o/a"]).2.Nodup ∧
    (jsTrim (str "Web", [str "o/a"]).1 = jsTrim (str "Web", [str "o/a"]).1 →
      (str "Web", [str "o/a"]).1 = (str "Web", [str "o/a"]).1) :=
  C1_merge_amended [[(str "Web", [str "o/a"])]] (str "Web", [str "o/a"])
    (str "Web", [str "o/a"]) (by decide) (by decide)

/-- Witness for C5 at a three-page dataset of four items with wave width 1. -/
theorem C5_pagination_witness :
    getAllStarredRepos [[⟨str "o/a", none, none, none, 1⟩,
        ⟨str "o/b", none, none, none, 2⟩], [⟨str "o/c", none, none, none, 3⟩],
        [⟨str "o/d", none, none, none, 4⟩]] 1 =
      ([[⟨str "o/a", none, none, none, 1⟩, ⟨str "o/b", none, none, none, 2⟩],
        [⟨str "o/c", none, none, none, 3⟩], [⟨str "o/d", none, none, none, 4⟩]] :
          List (List RawRepo)).flatMap extractRepoData ∧
    (getAllStarredRepos [[⟨str "o/a", none, none, none, 1⟩,
        ⟨str "o/b", none, none, none, 2⟩], [⟨str "o/c", none, none, none, 3⟩],
        [⟨str "o/d", none, none, none, 4⟩]] 1).length =
      (([[⟨str "o/a", none, none, none, 1⟩, ⟨str "o/b", none, none, none, 2⟩],
        [⟨str "o/c", none, none, none, 3⟩], [⟨str "o/d", none, none, none, 4⟩]] :
          List (List RawRepo)).map List.length).sum :=
  C5_pagination _ 1 (by norm_num) (by decide)

end StarCat
